import Mathlib

set_option maxRecDepth 8000

/-
Verification of the heatmap data-model utilities (src/utils/heatmap.js).

Dates are embedded as a pair of a civil day number (days since the Unix
epoch, local time, no DST: the spec excludes timezone conversion and
treats dates as already normalized to local calendar days) and a
millisecond offset within the day.  Calendar fields (day of month, month)
are computed from an inductively defined proleptic Gregorian calendar:
civilOfDay walks day by day from the epoch, which is extensionally the
computation performed by the ECMAScript date functions under the no-DST
assumption.

Numeric observation values are embedded as integers; the single place the
code divides (the intensity computation of getColor) is embedded as exact
rational division.

The date collaborators of src/utils/date.js are not part of the sources;
they are modelled from the spec (section 6) and marked as such.
-/

-- Milliseconds per day, the magic literal 86400000 of getCalendar.
def msPerDay : Int := 86400000

/-- A JavaScript Date value: civil day number since the Unix epoch plus a
millisecond offset inside that day.  Comparison and subtraction of JS
dates coerce to the timestamp, modelled by JSDate.time. -/
structure JSDate where
  day : Int
  ms : Int
deriving DecidableEq, Repr

def JSDate.time (d : JSDate) : Int := d.day * msPerDay + d.ms

/-- A civil (year, month, day-of-month) triple; month is 1 to 12. -/
structure Civil where
  year : Int
  month : Nat
  mday : Nat
deriving DecidableEq, Repr

def isLeapYear (y : Int) : Bool :=
  (y % 4 == 0 && y % 100 != 0) || y % 400 == 0

def daysInMonth (y : Int) (m : Nat) : Nat :=
  if m = 2 then (if isLeapYear y then 29 else 28)
  else if m = 4 ∨ m = 6 ∨ m = 9 ∨ m = 11 then 30
  else 31

def civilSucc (c : Civil) : Civil :=
  if c.mday < daysInMonth c.year c.month then ⟨c.year, c.month, c.mday + 1⟩
  else if c.month < 12 then ⟨c.year, c.month + 1, 1⟩
  else ⟨c.year + 1, 1, 1⟩

def civilPred (c : Civil) : Civil :=
  if 1 < c.mday then ⟨c.year, c.month, c.mday - 1⟩
  else if 1 < c.month then ⟨c.year, c.month - 1, daysInMonth c.year (c.month - 1)⟩
  else ⟨c.year - 1, 12, 31⟩

def epochCivil : Civil := ⟨1970, 1, 1⟩

/-- Civil date of a day number: iterate the calendar successor (or
predecessor) from the epoch 1970-01-01. -/
def civilOfDay (z : Int) : Civil :=
  if 0 ≤ z then civilSucc^[z.toNat] epochCivil
  else civilPred^[(-z).toNat] epochCivil

/-- ECMAScript Date.prototype.getDate: the day of the month, 1-based. -/
def JSDate.getDate (d : JSDate) : Int := ((civilOfDay d.day).mday : Int)

/-- ECMAScript Date.prototype.getMonth: the month, 0-based (0 = January). -/
def JSDate.getMonth (d : JSDate) : Int := ((civilOfDay d.day).month : Int) - 1

/-- ECMAScript Date.prototype.setDate: writing n into the day-of-month
field moves the date by n minus the current day of the month (time of day
is preserved; no DST by the spec's non-goals). -/
def JSDate.setDate (d : JSDate) (n : Int) : JSDate :=
  ⟨d.day + n - d.getDate, d.ms⟩

/-- Modelled from the spec: normalizeDate collapses any date-like input to
day granularity (src/utils/date.js is not among the sources). -/
def normalizeDate (d : JSDate) : JSDate := ⟨d.day, 0⟩

/-- Day of the week of a day number, 0 = Sunday (the Unix epoch was a
Thursday, weekday 4); Sunday-first alignment per the spec's examples. -/
def weekdayOf (z : Int) : Int := (z + 4).emod 7

/-- Modelled from the spec: getWeekStart returns the first day of the
calendar week containing d (src/utils/date.js is not among the sources). -/
def getWeekStart (d : JSDate) : JSDate := ⟨d.day - weekdayOf d.day, 0⟩

/-- Modelled from the spec: getWeekEnd returns the last day of the
calendar week containing d (src/utils/date.js is not among the sources). -/
def getWeekEnd (d : JSDate) : JSDate := ⟨d.day + (6 - weekdayOf d.day), 0⟩

/-- Modelled from the spec: getMonthStart returns the first day of the
calendar month containing d (src/utils/date.js is not among the sources). -/
def getMonthStart (d : JSDate) : JSDate :=
  ⟨d.day - (((civilOfDay d.day).mday : Int) - 1), 0⟩

/-- Modelled from the spec: getMonthEnd returns the last day of the
calendar month containing d (src/utils/date.js is not among the sources). -/
def getMonthEnd (d : JSDate) : JSDate :=
  ⟨d.day + ((daysInMonth (civilOfDay d.day).year (civilOfDay d.day).month : Int)
      - ((civilOfDay d.day).mday : Int)), 0⟩

/-- An input data point: a date-like value and a numeric value. -/
structure Observation where
  date : JSDate
  value : Int
deriving DecidableEq, Repr

/-- Intermediate result of getDay, before a color is attached. -/
structure DayValue where
  date : JSDate
  value : Int
deriving DecidableEq, Repr

/-- A calendar entry as produced by getCalendar. -/
structure Day where
  date : JSDate
  value : Int
  color : String
deriving DecidableEq, Repr

/-- The statement acc[acc.length - 1].push(day) of the chunkers: append
day to the last row.  Both chunkers create a row before the first push, so
the rows list is never empty when this runs. -/
def pushLast (rows : List (List Day)) (day : Day) : List (List Day) :=
  rows.dropLast ++ [rows.getLastD [] ++ [day]]

/-- The bound filter of chunkMonths and chunkWeeks: a missing bound is no
constraint, otherwise compare the entry's date with the bound. -/
def boundsKeep (startDate endDate : Option JSDate) (d : JSDate) : Bool :=
  (startDate.all fun s => s.time ≤ d.time) && (endDate.all fun e => d.time ≤ e.time)

/-- One step of the reduce of chunkMonths: state is the rows so far plus
prevMonth (initially -1); a change of month opens a new row, then the
entry is pushed onto the last row if allowOverflow or within bounds. -/
def monthsStep (allowOverflow : Bool) (startDate endDate : Option JSDate)
    (st : List (List Day) × Int) (day : Day) : List (List Day) × Int :=
  let currentMonth := day.date.getMonth
  let st1 := if st.2 ≠ currentMonth then (st.1 ++ [[]], currentMonth) else st
  if allowOverflow || boundsKeep startDate endDate day.date then
    (pushLast st1.1 day, st1.2)
  else st1

/-- chunkMonths of src/utils/heatmap.js: normalize the bounds, fold the
calendar grouping by month, then drop rows of length 0. -/
def chunkMonths (allowOverflow : Bool) (calendar : List Day)
    (startDate endDate : Option JSDate) : List (List Day) :=
  ((calendar.foldl
      (monthsStep allowOverflow (startDate.map normalizeDate) (endDate.map normalizeDate))
      ([], -1)).1).filter fun month => month.length != 0

/-- One step of the reduce of chunkWeeks: every 7th index opens a new row,
then the entry is pushed onto the last row if allowOverflow or within
bounds. -/
def weeksStep (allowOverflow : Bool) (startDate endDate : Option JSDate)
    (acc : List (List Day)) (iday : Nat × Day) : List (List Day) :=
  let acc1 := if iday.1 % 7 = 0 then acc ++ [[]] else acc
  if allowOverflow || boundsKeep startDate endDate iday.2.date then
    pushLast acc1 iday.2
  else acc1

/-- chunkWeeks of src/utils/heatmap.js: normalize the bounds, fold the
calendar with its index, then drop rows of length 0. -/
def chunkWeeks (allowOverflow : Bool) (calendar : List Day)
    (startDate endDate : Option JSDate) : List (List Day) :=
  ((calendar.enum).foldl
      (weeksStep allowOverflow (startDate.map normalizeDate) (endDate.map normalizeDate))
      []).filter fun week => week.length != 0

/-- The loop of getColor: walk the scale from index 1, returning the
previous color at the first boundary the intensity is below; walking off
the end returns the last color, which is exactly the color accumulator at
that point. -/
def getColorGo (scaleLength : ℚ) (intencity : ℚ) :
    List String → Nat → String → String
  | [], _, color => color
  | c :: rest, i, color =>
      if intencity < (i : ℚ) / scaleLength then color
      else getColorGo scaleLength intencity rest (i + 1) c

/-- getColor of src/utils/heatmap.js: null when the scale is empty or the
value is falsy, otherwise the bucket color for intensity value / max. -/
def getColor (colors : List String) (max value : Int) : Option String :=
  if colors.length ≠ 0 ∧ value ≠ 0 then
    some (getColorGo (colors.length : ℚ) ((value : ℚ) / (max : ℚ))
      (colors.drop 1) 1 (colors.headD ""))
  else none

/-- getDay of src/utils/heatmap.js: build the target date from the anchor
via setDate, the exclusive upper bound one day later, and sum the values
of the observations whose normalized date falls in between. -/
def getDay (data : List Observation) (offset : Int) (startDate : JSDate)
    (startDayOfMonth : Int) : DayValue :=
  let date := startDate.setDate (startDayOfMonth + offset)
  let nextDate := date.setDate (date.getDate + 1)
  let value := data.foldl (fun acc obj =>
    let datapoint := normalizeDate obj.date
    if date.time ≤ datapoint.time ∧ datapoint.time < nextDate.time then
      acc + obj.value
    else acc) 0
  ⟨date, value⟩

/-- The JavaScript or-else of getCalendar (getColor(...) || emptyColor):
null and the empty string are both falsy. -/
def jsOr (o : Option String) (dflt : String) : String :=
  match o with
  | none => dflt
  | some c => if c = "" then dflt else c

/-- The defaulting and normalization getCalendar applies to each bound: a
given date is normalized, a missing one is the current moment, as is. -/
def preWiden (bound : Option JSDate) (now : JSDate) : JSDate :=
  match bound with
  | some d => normalizeDate d
  | none => now

/-- The date-range resolution of getCalendar: default and normalize both
bounds, then widen to month boundaries for the monthly view and to week
boundaries otherwise. -/
def resolveDates (startDate endDate : Option JSDate) (view : String)
    (now : JSDate) : JSDate × JSDate :=
  let s := preWiden startDate now
  let e := preWiden endDate now
  if view = "monthly" then (getMonthStart s, getMonthEnd e)
  else (getWeekStart s, getWeekEnd e)

/-- The first pass of getCalendar: one getDay result for every offset in
the resolved range (totalDays = floor of the time difference in days,
plus one). -/
def calendarDays (data : List Observation) (startDate endDate : Option JSDate)
    (view : String) (now : JSDate) : List DayValue :=
  let r := resolveDates startDate endDate view now
  let startDayOfMonth := r.1.getDate
  let totalDays := ((r.2.time - r.1.time).fdiv msPerDay + 1).toNat
  (List.range totalDays).map fun offset => getDay data (Int.ofNat offset) r.1 startDayOfMonth

/-- The running maximum of the first pass of getCalendar. -/
def calendarMax (days : List DayValue) : Int :=
  days.foldl (fun mx d => if d.value > mx then d.value else mx) 0

/-- getCalendar of src/utils/heatmap.js: aggregate every day in the
resolved range, then color each day against the range maximum, falling
back to emptyColor when getColor yields a falsy result. -/
def getCalendar (colors : List String) (data : List Observation)
    (emptyColor : String) (startDate endDate : Option JSDate) (view : String)
    (now : JSDate) : List Day :=
  let days := calendarDays data startDate endDate view now
  let mx := calendarMax days
  days.map fun d => ⟨d.date, d.value, jsOr (getColor colors mx d.value) emptyColor⟩

/-- Decomposition of a list into blocks of 7 by sequence position, the
shape the spec ascribes to week rows. -/
def weekBlocks : List Day → List (List Day)
  | [] => []
  | d :: rest => ((d :: rest).take 7) :: weekBlocks ((d :: rest).drop 7)
termination_by l => l.length
decreasing_by simp [List.length_drop]; omega

/-- Modelled from the spec: the resolution order the spec describes for
getCalendar, default each missing bound to the current moment and then
normalize both, before widening. -/
def specResolveDates (startDate endDate : Option JSDate) (view : String)
    (now : JSDate) : JSDate × JSDate :=
  let s := normalizeDate (startDate.getD now)
  let e := normalizeDate (endDate.getD now)
  if view = "monthly" then (getMonthStart s, getMonthEnd e)
  else (getWeekStart s, getWeekEnd e)

/-- Linearized month counter of a day number, used to compare calendar
months across rows. -/
def monthIdx (z : Int) : Int :=
  12 * (civilOfDay z).year + ((civilOfDay z).month : Int)

/-- Well-formedness of a civil triple. -/
def validCivil (c : Civil) : Prop :=
  1 ≤ c.month ∧ c.month ≤ 12 ∧ 1 ≤ c.mday ∧ c.mday ≤ daysInMonth c.year c.month

/-- Ordering between chunked rows: every entry of the first row lies in a
strictly earlier calendar month than every entry of the second. -/
def rowMonthLt (r1 r2 : List Day) : Prop :=
  ∀ a ∈ r1, ∀ b ∈ r2, monthIdx a.date.day < monthIdx b.date.day

/-- Invariant of the chunkMonths fold, relative to the day number z of the
last processed calendar entry: the rows are nonempty, prevMonth is the
month of z, the open row holds entries of the month of z, closed rows hold
entries of strictly earlier months, rows are strictly ordered by month,
and each row is within a single month. -/
def monthsInv (z : Int) (st : List (List Day) × Int) : Prop :=
  st.1 ≠ []
  ∧ st.2 = ((civilOfDay z).month : Int) - 1
  ∧ (∀ a ∈ st.1.getLastD [], monthIdx a.date.day = monthIdx z)
  ∧ (∀ r ∈ st.1.dropLast, ∀ a ∈ r, monthIdx a.date.day < monthIdx z)
  ∧ List.Pairwise rowMonthLt st.1
  ∧ (∀ r ∈ st.1, ∀ a ∈ r, ∀ b ∈ r, monthIdx a.date.day = monthIdx b.date.day)

-- Civil calendar facts

lemma daysInMonth_pos (y : Int) (m : Nat) : 1 ≤ daysInMonth y m := by
  unfold daysInMonth
  split_ifs <;> norm_num

lemma validCivil_epoch : validCivil epochCivil := by
  constructor <;> simp [epochCivil, daysInMonth]

lemma validCivil_succ {c : Civil} (h : validCivil c) : validCivil (civilSucc c) := by
  obtain ⟨y, m, d⟩ := c
  obtain ⟨hm1, hm2, hd1, hd2⟩ := h
  have hp1 := daysInMonth_pos y (m + 1)
  have hp2 := daysInMonth_pos (y + 1) 1
  simp only [validCivil, civilSucc] at *
  split_ifs with h1 h2 <;> simp at * <;> omega

lemma validCivil_pred {c : Civil} (h : validCivil c) : validCivil (civilPred c) := by
  obtain ⟨y, m, d⟩ := c
  obtain ⟨hm1, hm2, hd1, hd2⟩ := h
  have hp1 := daysInMonth_pos y (m - 1)
  have hp2 : daysInMonth (y - 1) 12 = 31 := by simp [daysInMonth]
  simp only [validCivil, civilPred] at *
  split_ifs with h1 h2 <;> simp at * <;> omega

lemma civilSucc_pred {c : Civil} (h : validCivil c) : civilSucc (civilPred c) = c := by
  obtain ⟨y, m, d⟩ := c
  simp [validCivil] at h
  obtain ⟨hm1, hm2, hd1, hd2⟩ := h
  have hp2 : daysInMonth (y - 1) 12 = 31 := by simp [daysInMonth]
  unfold civilPred
  split_ifs with h1 h2
  · simp at h1
    unfold civilSucc
    rw [if_pos (show (Civil.mk y m (d - 1)).mday
        < daysInMonth (Civil.mk y m (d - 1)).year (Civil.mk y m (d - 1)).month from by
          simp; omega)]
    have hd' : d - 1 + 1 = d := by omega
    simp [hd']
  · simp at h1 h2
    unfold civilSucc
    rw [if_neg (show ¬ (Civil.mk y (m - 1) (daysInMonth y (m - 1))).mday
        < daysInMonth (Civil.mk y (m - 1) (daysInMonth y (m - 1))).year
          (Civil.mk y (m - 1) (daysInMonth y (m - 1))).month from by simp)]
    rw [if_pos (show (Civil.mk y (m - 1) (daysInMonth y (m - 1))).month < 12 from by
      simp; omega)]
    have hm' : m - 1 + 1 = m := by omega
    have hd' : d = 1 := by omega
    simp [hm', hd']
  · simp at h1 h2
    unfold civilSucc
    rw [if_neg (show ¬ (Civil.mk (y - 1) 12 31).mday
        < daysInMonth (Civil.mk (y - 1) 12 31).year (Civil.mk (y - 1) 12 31).month from by
          simp [hp2])]
    rw [if_neg (show ¬ (Civil.mk (y - 1) 12 31).month < 12 from by simp)]
    have hy : y - 1 + 1 = y := by omega
    have hm' : m = 1 := by omega
    have hd' : d = 1 := by omega
    simp [hy, hm', hd']

lemma validCivil_iterate_succ (n : Nat) : validCivil (civilSucc^[n] epochCivil) := by
  induction n with
  | zero => exact validCivil_epoch
  | succ k ih => rw [Function.iterate_succ_apply']; exact validCivil_succ ih

lemma validCivil_iterate_pred (n : Nat) : validCivil (civilPred^[n] epochCivil) := by
  induction n with
  | zero => exact validCivil_epoch
  | succ k ih => rw [Function.iterate_succ_apply']; exact validCivil_pred ih

lemma civilOfDay_valid (z : Int) : validCivil (civilOfDay z) := by
  unfold civilOfDay
  split_ifs
  · exact validCivil_iterate_succ _
  · exact validCivil_iterate_pred _

lemma civilOfDay_add_one (z : Int) : civilOfDay (z + 1) = civilSucc (civilOfDay z) := by
  rcases le_or_lt 0 z with hz | hz
  · have hz1 : 0 ≤ z + 1 := by omega
    have ht : (z + 1).toNat = z.toNat + 1 := by omega
    simp only [civilOfDay, if_pos hz, if_pos hz1, ht, Function.iterate_succ_apply']
  · rcases eq_or_lt_of_le (by omega : z + 1 ≤ 0) with h0 | hneg
    · have hz1 : z = -1 := by omega
      subst hz1
      norm_num [civilOfDay]
      exact (civilSucc_pred validCivil_epoch).symm
    · have h1 : ¬ 0 ≤ z + 1 := by omega
      have h2 : ¬ 0 ≤ z := by omega
      have ht : (-z).toNat = (-(z + 1)).toNat + 1 := by omega
      simp only [civilOfDay, if_neg h1, if_neg h2, ht, Function.iterate_succ_apply']
      rw [civilSucc_pred (validCivil_iterate_pred _)]

lemma month_step (z : Int) :
    ((civilOfDay (z + 1)).month = (civilOfDay z).month ∧ monthIdx (z + 1) = monthIdx z)
    ∨ ((civilOfDay (z + 1)).month ≠ (civilOfDay z).month
        ∧ monthIdx (z + 1) = monthIdx z + 1) := by
  have hv := civilOfDay_valid z
  have hstep := civilOfDay_add_one z
  simp only [monthIdx, hstep]
  rcases hcv : civilOfDay z with ⟨y, m, d⟩
  rw [hcv] at hv
  obtain ⟨hm1, hm2, hd1, hd2⟩ := hv
  simp only [validCivil, civilSucc] at *
  split_ifs with h1 h2
  · left
    exact ⟨rfl, rfl⟩
  · right
    constructor
    · simp
    · simp
      ring
  · right
    have hm12 : m = 12 := by omega
    subst hm12
    constructor
    · simp
    · simp
      ring

lemma month_eq_iff_monthIdx (z : Int) :
    (civilOfDay (z + 1)).month = (civilOfDay z).month ↔ monthIdx (z + 1) = monthIdx z := by
  rcases month_step z with ⟨h1, h2⟩ | ⟨h1, h2⟩
  · simp [h1, h2]
  · constructor
    · intro h
      exact absurd h h1
    · intro h
      omega


-- Basic date lemmas

lemma JSDate_time_mk (a b : Int) : (JSDate.mk a b).time = a * msPerDay + b := rfl

lemma setDate_getDate_add (d : JSDate) (k : Int) :
    d.setDate (d.getDate + k) = ⟨d.day + k, d.ms⟩ := by
  simp only [JSDate.setDate, JSDate.mk.injEq]
  exact ⟨by omega, trivial⟩

lemma time_succ_day (d : JSDate) :
    (JSDate.mk (d.day + 1) d.ms).time = d.time + msPerDay := by
  simp [JSDate.time]
  ring

-- The aggregation fold of getDay is a sum over a filter

lemma foldl_between_sum (lo hi : Int) : ∀ (l : List Observation) (a : Int),
    l.foldl (fun acc obj =>
        if lo ≤ (normalizeDate obj.date).time ∧ (normalizeDate obj.date).time < hi then
          acc + obj.value
        else acc) a
      = a + ((l.filter fun obj =>
          decide (lo ≤ (normalizeDate obj.date).time
            ∧ (normalizeDate obj.date).time < hi)).map Observation.value).sum := by
  intro l
  induction l with
  | nil => intro a; simp
  | cons o t ih =>
    intro a
    by_cases h : lo ≤ (normalizeDate o.date).time ∧ (normalizeDate o.date).time < hi
    · simp only [List.foldl_cons, List.filter_cons, decide_eq_true_eq, if_pos h,
        List.map_cons, List.sum_cons]
      rw [ih]
      ring
    · simp only [List.foldl_cons, List.filter_cons, decide_eq_true_eq, if_neg h]
      rw [ih]

lemma getDay_date_eq (data : List Observation) (offset : Int) (startDate : JSDate)
    (startDayOfMonth : Int) :
    (getDay data offset startDate startDayOfMonth).date
      = startDate.setDate (startDayOfMonth + offset) := rfl

/-- C3: getDay returns the date built from the anchor plus offset together
with the sum of the values of exactly those observations whose normalized
date falls in the half-open one-day window starting at that date, and the
value is 0 when no observation matches. -/
theorem getDay_aggregates (data : List Observation) (offset : Int)
    (startDate : JSDate) (startDayOfMonth : Int) :
    (getDay data offset startDate startDayOfMonth).value
      = ((data.filter fun obj =>
            decide ((getDay data offset startDate startDayOfMonth).date.time
                ≤ (normalizeDate obj.date).time
              ∧ (normalizeDate obj.date).time
                < (getDay data offset startDate startDayOfMonth).date.time + msPerDay)).map
          Observation.value).sum
    ∧ ((∀ obj ∈ data,
          ¬ ((getDay data offset startDate startDayOfMonth).date.time
                ≤ (normalizeDate obj.date).time
              ∧ (normalizeDate obj.date).time
                < (getDay data offset startDate startDayOfMonth).date.time + msPerDay))
        → (getDay data offset startDate startDayOfMonth).value = 0) := by
  have key : (getDay data offset startDate startDayOfMonth).value
      = ((data.filter fun obj =>
            decide ((getDay data offset startDate startDayOfMonth).date.time
                ≤ (normalizeDate obj.date).time
              ∧ (normalizeDate obj.date).time
                < (getDay data offset startDate startDayOfMonth).date.time + msPerDay)).map
          Observation.value).sum := by
    rw [getDay_date_eq]
    show (getDay data offset startDate startDayOfMonth).value = _
    unfold getDay
    simp only [setDate_getDate_add, time_succ_day]
    rw [foldl_between_sum]
    rw [zero_add]
  refine ⟨key, fun h => ?_⟩
  rw [key]
  have hnil : (data.filter fun obj =>
      decide ((getDay data offset startDate startDayOfMonth).date.time
          ≤ (normalizeDate obj.date).time
        ∧ (normalizeDate obj.date).time
          < (getDay data offset startDate startDayOfMonth).date.time + msPerDay)) = [] := by
    rw [List.filter_eq_nil_iff]
    intro obj hobj
    simpa using h obj hobj
  rw [hnil]
  rfl

theorem getDay_aggregates_w :
    (getDay [⟨⟨3, 500⟩, 1⟩, ⟨⟨3, 0⟩, 2⟩, ⟨⟨4, 0⟩, 5⟩] 0 ⟨3, 0⟩ 4).value = 3
    ∧ (getDay [] 0 ⟨3, 0⟩ 4).value = 0 :=
  ⟨((getDay_aggregates [⟨⟨3, 500⟩, 1⟩, ⟨⟨3, 0⟩, 2⟩, ⟨⟨4, 0⟩, 5⟩] 0 ⟨3, 0⟩ 4).1).trans
      (by decide),
    (getDay_aggregates [] 0 ⟨3, 0⟩ 4).2 (by simp)⟩

-- Range resolution of getCalendar

lemma resolveDates_fst_ms (startDate endDate : Option JSDate) (view : String)
    (now : JSDate) : (resolveDates startDate endDate view now).1.ms = 0 := by
  unfold resolveDates
  split_ifs <;> rfl

lemma resolveDates_snd_ms (startDate endDate : Option JSDate) (view : String)
    (now : JSDate) : (resolveDates startDate endDate view now).2.ms = 0 := by
  unfold resolveDates
  split_ifs <;> rfl

/-- C9 counterexample: when the start date is absent, the pre-widening
resolved date of getCalendar is the current moment as-is, which is not the
normalized (day-granular) value the claim describes whenever the current
moment has a nonzero time of day. -/
theorem getCalendar_default_unnormalized_cex :
    preWiden none ⟨0, 1⟩ ≠ normalizeDate (Option.getD none ⟨0, 1⟩)
    ∧ (preWiden none ⟨0, 1⟩).ms ≠ 0 := by decide

/-- C9 amended: a provided start or end date is normalized to day
granularity, while a missing one defaults to the current moment without
passing through normalizeDate; since the view-dependent widening depends
only on the calendar day, the resolved, widened range is nevertheless
day-granular and equals what the normalize-after-default order the spec
describes would produce. -/
theorem resolveDates_matches_spec_order (startDate endDate : Option JSDate)
    (view : String) (now : JSDate) :
    preWiden (some now) now = normalizeDate now
    ∧ preWiden none now = now
    ∧ resolveDates startDate endDate view now = specResolveDates startDate endDate view now
    ∧ (resolveDates startDate endDate view now).1.ms = 0
    ∧ (resolveDates startDate endDate view now).2.ms = 0 := by
  refine ⟨rfl, rfl, ?_, resolveDates_fst_ms _ _ _ _, resolveDates_snd_ms _ _ _ _⟩
  unfold resolveDates specResolveDates preWiden
  cases startDate <;> cases endDate <;> rfl

-- Shape of getCalendar

lemma getCalendar_eq_map (colors : List String) (data : List Observation)
    (emptyColor : String) (startDate endDate : Option JSDate) (view : String)
    (now : JSDate) :
    getCalendar colors data emptyColor startDate endDate view now
      = (calendarDays data startDate endDate view now).map fun d =>
          ⟨d.date, d.value,
            jsOr (getColor colors (calendarMax (calendarDays data startDate endDate view now))
              d.value) emptyColor⟩ := rfl

lemma calendarDays_length (data : List Observation) (startDate endDate : Option JSDate)
    (view : String) (now : JSDate) :
    (calendarDays data startDate endDate view now).length
      = (((resolveDates startDate endDate view now).2.time
          - (resolveDates startDate endDate view now).1.time).fdiv msPerDay + 1).toNat := by
  simp only [calendarDays]
  rw [List.length_map, List.length_range]

lemma calendarDays_getElem (data : List Observation) (startDate endDate : Option JSDate)
    (view : String) (now : JSDate) (i : Nat)
    (h : i < (calendarDays data startDate endDate view now).length) :
    (calendarDays data startDate endDate view now)[i]
      = getDay data (Int.ofNat i) (resolveDates startDate endDate view now).1
          ((resolveDates startDate endDate view now).1.getDate) := by
  simp only [calendarDays] at h ⊢
  rw [List.getElem_map, List.getElem_range]

lemma getCalendar_getElem_date (colors : List String) (data : List Observation)
    (emptyColor : String) (startDate endDate : Option JSDate) (view : String)
    (now : JSDate) (i : Nat)
    (h : i < (getCalendar colors data emptyColor startDate endDate view now).length) :
    ((getCalendar colors data emptyColor startDate endDate view now)[i]).date
      = JSDate.mk ((resolveDates startDate endDate view now).1.day + i)
          (resolveDates startDate endDate view now).1.ms := by
  have h2 : i < (calendarDays data startDate endDate view now).length := by
    rw [getCalendar_eq_map, List.length_map] at h
    exact h
  simp only [getCalendar_eq_map, List.getElem_map]
  rw [calendarDays_getElem data startDate endDate view now i h2, getDay_date_eq,
    setDate_getDate_add]
  rfl

/-- C1: for a valid resolved range, the calendar built by getCalendar has
exactly the inclusive day-count between the resolved, view-widened start
and end as its length, and each entry's date is exactly one day after the
previous entry's date (same time of day, next day number): ascending, no
gaps, no duplicates. -/
theorem getCalendar_length_and_contiguity (colors : List String)
    (data : List Observation) (emptyColor : String)
    (startDate endDate : Option JSDate) (view : String) (now : JSDate)
    (h : (resolveDates startDate endDate view now).1.day
      ≤ (resolveDates startDate endDate view now).2.day) :
    (((getCalendar colors data emptyColor startDate endDate view now).length : Int)
        = (resolveDates startDate endDate view now).2.day
          - (resolveDates startDate endDate view now).1.day + 1)
    ∧ ∀ i (hi : i + 1 < (getCalendar colors data emptyColor startDate endDate view now).length),
        ((getCalendar colors data emptyColor startDate endDate view now).get
              ⟨i + 1, hi⟩).date.day
          = ((getCalendar colors data emptyColor startDate endDate view now).get
              ⟨i, Nat.lt_of_succ_lt hi⟩).date.day + 1
        ∧ ((getCalendar colors data emptyColor startDate endDate view now).get
              ⟨i + 1, hi⟩).date.ms
          = ((getCalendar colors data emptyColor startDate endDate view now).get
              ⟨i, Nat.lt_of_succ_lt hi⟩).date.ms := by
  constructor
  · have hl : (getCalendar colors data emptyColor startDate endDate view now).length
        = (calendarDays data startDate endDate view now).length := by
      rw [getCalendar_eq_map, List.length_map]
    rw [hl, calendarDays_length]
    have h1 := resolveDates_fst_ms startDate endDate view now
    have h2 := resolveDates_snd_ms startDate endDate view now
    have ht : (resolveDates startDate endDate view now).2.time
        - (resolveDates startDate endDate view now).1.time
        = ((resolveDates startDate endDate view now).2.day
          - (resolveDates startDate endDate view now).1.day) * msPerDay := by
      simp [JSDate.time, h1, h2]
      ring
    rw [ht, Int.mul_fdiv_cancel _ (by norm_num [msPerDay])]
    rw [Int.toNat_of_nonneg (by omega)]
  · intro i hi
    rw [List.get_eq_getElem, List.get_eq_getElem]
    rw [getCalendar_getElem_date colors data emptyColor startDate endDate view now
        (i + 1) hi,
      getCalendar_getElem_date colors data emptyColor startDate endDate view now
        i (Nat.lt_of_succ_lt hi)]
    constructor
    · simp
      omega
    · simp

theorem getCalendar_length_and_contiguity_w :
    ((resolveDates (some ⟨5, 0⟩) (some ⟨5, 0⟩) "weekly" ⟨0, 0⟩).1.day
        ≤ (resolveDates (some ⟨5, 0⟩) (some ⟨5, 0⟩) "weekly" ⟨0, 0⟩).2.day)
    ∧ ((getCalendar [] [] "#000" (some ⟨5, 0⟩) (some ⟨5, 0⟩) "weekly" ⟨0, 0⟩).length : Int) = 7 :=
  ⟨by decide,
    ((getCalendar_length_and_contiguity [] [] "#000" (some ⟨5, 0⟩) (some ⟨5, 0⟩)
        "weekly" ⟨0, 0⟩ (by decide)).1).trans (by decide)⟩

-- pushLast facts

lemma pushLast_ne_nil (rows : List (List Day)) (d : Day) : pushLast rows d ≠ [] := by
  simp [pushLast]

lemma pushLast_concat (acc : List (List Day)) (r : List Day) (d : Day) :
    pushLast (acc ++ [r]) d = acc ++ [r ++ [d]] := by
  simp [pushLast]

lemma getLastD_eq_getLast {α : Type} {l : List α} (h : l ≠ []) (x : α) :
    l.getLastD x = l.getLast h := by
  cases l with
  | nil => exact absurd rfl h
  | cons a t => rw [List.getLastD_cons, List.getLast_eq_getLastD]

lemma pushLast_flatten {rows : List (List Day)} (h : rows ≠ []) (d : Day) :
    (pushLast rows d).flatten = rows.flatten ++ [d] := by
  conv_rhs => rw [← List.dropLast_append_getLast h]
  rw [pushLast, getLastD_eq_getLast h, List.flatten_append, List.flatten_append]
  simp

lemma mem_pushLast {rows : List (List Day)} {d : Day} {r : List Day}
    (hr : r ∈ pushLast rows d) : r ∈ rows.dropLast ∨ r = rows.getLastD [] ++ [d] := by
  rw [pushLast] at hr
  rcases List.mem_append.mp hr with h | h
  · exact Or.inl h
  · exact Or.inr (List.mem_singleton.mp h)

-- The chunk folds flatten to the bound-filtered calendar

lemma weeks_fold_flatten (ao : Bool) (sd ed : Option JSDate) :
    ∀ (l : List Day) (n : Nat) (acc : List (List Day)),
    (acc ≠ [] ∨ n % 7 = 0) →
    ((List.enumFrom n l).foldl (weeksStep ao sd ed) acc).flatten
      = acc.flatten ++ l.filter fun d => ao || boundsKeep sd ed d.date := by
  intro l
  induction l with
  | nil => intro n acc _; simp
  | cons d t ih =>
    intro n acc hacc
    rw [List.enumFrom_cons, List.foldl_cons]
    have hstep : weeksStep ao sd ed acc (n, d)
        = (if ao || boundsKeep sd ed d.date then
            pushLast (if n % 7 = 0 then acc ++ [[]] else acc) d
          else (if n % 7 = 0 then acc ++ [[]] else acc)) := rfl
    by_cases hn : n % 7 = 0
    · have hne : (acc ++ [[]] : List (List Day)) ≠ [] := by simp
      by_cases hk : (ao || boundsKeep sd ed d.date) = true
      · rw [hstep, if_pos hn, if_pos hk,
          ih (n + 1) _ (Or.inl (pushLast_ne_nil _ _)),
          pushLast_flatten hne, List.filter_cons, if_pos hk]
        simp
      · rw [hstep, if_pos hn, if_neg hk, ih (n + 1) _ (Or.inl hne),
          List.filter_cons, if_neg hk]
        simp
    · have hne : acc ≠ [] := hacc.resolve_right hn
      by_cases hk : (ao || boundsKeep sd ed d.date) = true
      · rw [hstep, if_neg hn, if_pos hk,
          ih (n + 1) _ (Or.inl (pushLast_ne_nil _ _)),
          pushLast_flatten hne, List.filter_cons, if_pos hk]
        simp
      · rw [hstep, if_neg hn, if_neg hk, ih (n + 1) _ (Or.inl hne),
          List.filter_cons, if_neg hk]

lemma getMonth_nonneg (d : JSDate) : 0 ≤ d.getMonth := by
  have h := civilOfDay_valid d.day
  obtain ⟨hm1, _, _, _⟩ := h
  unfold JSDate.getMonth
  omega

lemma months_fold_flatten (ao : Bool) (sd ed : Option JSDate) :
    ∀ (l : List Day) (st : List (List Day) × Int),
    (st.1 ≠ [] ∨ st.2 = -1) →
    ((l.foldl (monthsStep ao sd ed) st).1).flatten
      = st.1.flatten ++ l.filter fun d => ao || boundsKeep sd ed d.date := by
  intro l
  induction l with
  | nil => intro st _; simp
  | cons d t ih =>
    intro st hst
    rw [List.foldl_cons]
    have hstep : monthsStep ao sd ed st d
        = (if ao || boundsKeep sd ed d.date then
            (pushLast (if st.2 ≠ d.date.getMonth then st.1 ++ [[]] else st.1) d,
              (if st.2 ≠ d.date.getMonth then (st.1 ++ [[]], d.date.getMonth) else st).2)
          else (if st.2 ≠ d.date.getMonth then (st.1 ++ [[]], d.date.getMonth) else st)) := by
      rw [monthsStep]
      split_ifs <;> rfl
    by_cases hm : st.2 ≠ d.date.getMonth
    · have hne : (st.1 ++ [[]] : List (List Day)) ≠ [] := by simp
      by_cases hk : (ao || boundsKeep sd ed d.date) = true
      · rw [hstep, if_pos hk, if_pos hm]
        rw [ih _ (Or.inl (by simp [pushLast_ne_nil])), pushLast_flatten hne,
          List.filter_cons, if_pos hk]
        simp
      · rw [hstep, if_neg hk, if_pos hm]
        rw [ih _ (Or.inl (by simp)), List.filter_cons, if_neg hk]
        simp
    · have hne : st.1 ≠ [] := by
        rcases hst with h | h
        · exact h
        · exfalso
          rw [not_not] at hm
          have := getMonth_nonneg d.date
          omega
      by_cases hk : (ao || boundsKeep sd ed d.date) = true
      · rw [hstep, if_pos hk, if_neg hm]
        rw [ih _ (Or.inl (by simp [pushLast_ne_nil])), pushLast_flatten hne,
          List.filter_cons, if_pos hk]
        simp
      · rw [hstep, if_neg hk, if_neg hm]
        rw [ih _ (Or.inl hne), List.filter_cons, if_neg hk]

lemma flatten_filter_ne_nil (rows : List (List Day)) :
    (rows.filter fun r => r.length != 0).flatten = rows.flatten := by
  induction rows with
  | nil => rfl
  | cons r rs ih =>
    rw [List.filter_cons]
    by_cases h : r = []
    · subst h
      simpa using ih
    · rw [if_pos (by simpa using h)]
      rw [List.flatten_cons, List.flatten_cons, ih]

lemma boundsKeep_map_normalize (sd ed : Option JSDate) (x : JSDate) :
    boundsKeep (sd.map normalizeDate) (ed.map normalizeDate) x
      = ((sd.all fun s => (normalizeDate s).time ≤ x.time)
          && (ed.all fun e => x.time ≤ (normalizeDate e).time)) := by
  cases sd <;> cases ed <;> rfl

lemma chunkWeeks_flatten (ao : Bool) (cal : List Day) (sd ed : Option JSDate) :
    (chunkWeeks ao cal sd ed).flatten
      = cal.filter fun day =>
          ao || boundsKeep (sd.map normalizeDate) (ed.map normalizeDate) day.date := by
  unfold chunkWeeks
  rw [flatten_filter_ne_nil,
    show cal.enum = List.enumFrom 0 cal from rfl,
    weeks_fold_flatten ao (sd.map normalizeDate) (ed.map normalizeDate) cal 0 []
      (Or.inr rfl)]
  rfl

lemma chunkMonths_flatten (ao : Bool) (cal : List Day) (sd ed : Option JSDate) :
    (chunkMonths ao cal sd ed).flatten
      = cal.filter fun day =>
          ao || boundsKeep (sd.map normalizeDate) (ed.map normalizeDate) day.date := by
  unfold chunkMonths
  rw [flatten_filter_ne_nil,
    months_fold_flatten ao (sd.map normalizeDate) (ed.map normalizeDate) cal ([], -1)
      (Or.inr rfl)]
  rfl

/-- C6: for both chunkers, the entries surviving into the output are
exactly the calendar entries that pass the overflow-or-bounds test: an
entry is kept iff allowOverflow is true, or its date is at or after the
normalized start bound (when present) and at or before the normalized end
bound (when present). -/
theorem chunk_inclusion_iff (ao : Bool) (cal : List Day) (sd ed : Option JSDate) :
    (chunkWeeks ao cal sd ed).flatten
        = cal.filter (fun day => ao
            || ((sd.all fun s => (normalizeDate s).time ≤ day.date.time)
              && (ed.all fun e => day.date.time ≤ (normalizeDate e).time)))
    ∧ (chunkMonths ao cal sd ed).flatten
        = cal.filter (fun day => ao
            || ((sd.all fun s => (normalizeDate s).time ≤ day.date.time)
              && (ed.all fun e => day.date.time ≤ (normalizeDate e).time))) := by
  constructor
  · rw [chunkWeeks_flatten]
    exact List.filter_congr fun x _ => by rw [boundsKeep_map_normalize]
  · rw [chunkMonths_flatten]
    exact List.filter_congr fun x _ => by rw [boundsKeep_map_normalize]

/-- C10: with allowOverflow set, the concatenation of the rows produced by
chunkWeeks, and likewise by chunkMonths, is exactly the input calendar: a
true partition with nothing dropped, duplicated or reordered. -/
theorem chunk_overflow_partition (cal : List Day) (sd ed : Option JSDate) :
    (chunkWeeks true cal sd ed).flatten = cal
    ∧ (chunkMonths true cal sd ed).flatten = cal := by
  constructor
  · rw [chunkWeeks_flatten]
    simp
  · rw [chunkMonths_flatten]
    simp

-- Rows are order-preserving selections of the calendar

lemma getLastD_sublist {acc : List (List Day)} {done : List Day}
    (h : ∀ r ∈ acc, r.Sublist done) : (acc.getLastD []).Sublist done := by
  cases acc with
  | nil => exact List.nil_sublist done
  | cons a t =>
    rw [getLastD_eq_getLast (by simp) []]
    exact h _ (List.getLast_mem _)

lemma weeks_fold_sublist (ao : Bool) (sd ed : Option JSDate) :
    ∀ (l : List Day) (n : Nat) (acc : List (List Day)) (done : List Day),
    (∀ r ∈ acc, r.Sublist done) →
    ∀ r ∈ (List.enumFrom n l).foldl (weeksStep ao sd ed) acc, r.Sublist (done ++ l) := by
  intro l
  induction l with
  | nil =>
    intro n acc done h r hr
    simpa using h r hr
  | cons d t ih =>
    intro n acc done h r hr
    rw [List.enumFrom_cons, List.foldl_cons] at hr
    have hbase : ∀ r3 ∈ (if n % 7 = 0 then acc ++ [[]] else acc), r3.Sublist done := by
      intro r3 hr3
      split_ifs at hr3 with hn
      · rcases List.mem_append.mp hr3 with h3 | h3
        · exact h r3 h3
        · rw [List.mem_singleton.mp h3]
          exact List.nil_sublist done
      · exact h r3 hr3
    have hw : weeksStep ao sd ed acc (n, d)
        = if ao || boundsKeep sd ed d.date then
            pushLast (if n % 7 = 0 then acc ++ [[]] else acc) d
          else (if n % 7 = 0 then acc ++ [[]] else acc) := rfl
    have hstep : ∀ r2 ∈ weeksStep ao sd ed acc (n, d), r2.Sublist (done ++ [d]) := by
      intro r2 hr2
      rw [hw] at hr2
      by_cases hk : (ao || boundsKeep sd ed d.date) = true
      · rw [if_pos hk] at hr2
        rcases mem_pushLast hr2 with h2 | h2
        · exact (hbase r2 ((List.dropLast_sublist _).subset h2)).trans
            (List.sublist_append_left done [d])
        · rw [h2]
          exact List.Sublist.append (getLastD_sublist hbase) (List.Sublist.refl [d])
      · rw [if_neg hk] at hr2
        exact (hbase r2 hr2).trans (List.sublist_append_left done [d])
    have hres := ih (n + 1) _ (done ++ [d]) hstep r hr
    simpa [List.append_assoc] using hres

lemma months_fold_sublist (ao : Bool) (sd ed : Option JSDate) :
    ∀ (l : List Day) (st : List (List Day) × Int) (done : List Day),
    (∀ r ∈ st.1, r.Sublist done) →
    ∀ r ∈ (l.foldl (monthsStep ao sd ed) st).1, r.Sublist (done ++ l) := by
  intro l
  induction l with
  | nil =>
    intro st done h r hr
    simpa using h r hr
  | cons d t ih =>
    intro st done h r hr
    rw [List.foldl_cons] at hr
    have hbase : ∀ r3 ∈ (if st.2 ≠ d.date.getMonth then st.1 ++ [[]] else st.1),
        r3.Sublist done := by
      intro r3 hr3
      split_ifs at hr3 with hn
      · rcases List.mem_append.mp hr3 with h3 | h3
        · exact h r3 h3
        · rw [List.mem_singleton.mp h3]
          exact List.nil_sublist done
      · exact h r3 hr3
    have hw : (monthsStep ao sd ed st d).1
        = if ao || boundsKeep sd ed d.date then
            pushLast (if st.2 ≠ d.date.getMonth then st.1 ++ [[]] else st.1) d
          else (if st.2 ≠ d.date.getMonth then st.1 ++ [[]] else st.1) := by
      rw [monthsStep]
      split_ifs <;> rfl
    have hstep : ∀ r2 ∈ (monthsStep ao sd ed st d).1, r2.Sublist (done ++ [d]) := by
      intro r2 hr2
      rw [hw] at hr2
      by_cases hk : (ao || boundsKeep sd ed d.date) = true
      · rw [if_pos hk] at hr2
        rcases mem_pushLast hr2 with h2 | h2
        · exact (hbase r2 ((List.dropLast_sublist _).subset h2)).trans
            (List.sublist_append_left done [d])
        · rw [h2]
          exact List.Sublist.append (getLastD_sublist hbase) (List.Sublist.refl [d])
      · rw [if_neg hk] at hr2
        exact (hbase r2 hr2).trans (List.sublist_append_left done [d])
    have hres := ih (monthsStep ao sd ed st d) (done ++ [d]) hstep r hr
    simpa [List.append_assoc] using hres

/-- C2: neither chunker ever returns a row of length 0, and every returned
row is an in-order selection (sublist) of the input calendar, so the
relative order of surviving entries is preserved. -/
theorem chunk_rows_nonempty_ordered (ao : Bool) (cal : List Day) (sd ed : Option JSDate) :
    (∀ r ∈ chunkWeeks ao cal sd ed, 0 < r.length ∧ r.Sublist cal)
    ∧ (∀ r ∈ chunkMonths ao cal sd ed, 0 < r.length ∧ r.Sublist cal) := by
  constructor
  · intro r hr
    unfold chunkWeeks at hr
    rw [List.mem_filter] at hr
    obtain ⟨hmem, hlen⟩ := hr
    refine ⟨Nat.pos_of_ne_zero (by simpa using hlen), ?_⟩
    have hres := weeks_fold_sublist ao (sd.map normalizeDate) (ed.map normalizeDate)
      cal 0 [] [] (by intro r2 hr2; cases hr2) r hmem
    simpa using hres
  · intro r hr
    unfold chunkMonths at hr
    rw [List.mem_filter] at hr
    obtain ⟨hmem, hlen⟩ := hr
    refine ⟨Nat.pos_of_ne_zero (by simpa using hlen), ?_⟩
    have hres := months_fold_sublist ao (sd.map normalizeDate) (ed.map normalizeDate)
      cal ([], -1) [] (by intro r2 hr2; cases hr2) r hmem
    simpa using hres

theorem chunk_rows_nonempty_ordered_w :
    (0 < ([(⟨⟨0, 0⟩, 0, ""⟩ : Day)] : List Day).length
      ∧ ([(⟨⟨0, 0⟩, 0, ""⟩ : Day)] : List Day).Sublist [(⟨⟨0, 0⟩, 0, ""⟩ : Day)])
    ∧ (0 < ([(⟨⟨0, 0⟩, 0, ""⟩ : Day)] : List Day).length
      ∧ ([(⟨⟨0, 0⟩, 0, ""⟩ : Day)] : List Day).Sublist [(⟨⟨0, 0⟩, 0, ""⟩ : Day)]) :=
  ⟨(chunk_rows_nonempty_ordered false [⟨⟨0, 0⟩, 0, ""⟩] none none).1
      [⟨⟨0, 0⟩, 0, ""⟩] (by decide),
    (chunk_rows_nonempty_ordered false [⟨⟨0, 0⟩, 0, ""⟩] none none).2
      [⟨⟨0, 0⟩, 0, ""⟩] (by decide)⟩

-- chunkWeeks with allowOverflow groups by raw 7-entry blocks

lemma weeks_fold_true_no_breaks (sd ed : Option JSDate) :
    ∀ (t : List Day) (n : Nat) (acc : List (List Day)) (r : List Day),
    (∀ k, k < t.length → (n + k) % 7 ≠ 0) →
    (List.enumFrom n t).foldl (weeksStep true sd ed) (acc ++ [r]) = acc ++ [r ++ t] := by
  intro t
  induction t with
  | nil => intro n acc r _; simp
  | cons d t2 ih =>
    intro n acc r h
    rw [List.enumFrom_cons, List.foldl_cons]
    have hn : n % 7 ≠ 0 := by
      have := h 0 (by simp)
      simpa using this
    have hw : weeksStep true sd ed (acc ++ [r]) (n, d) = acc ++ [r ++ [d]] := by
      rw [show weeksStep true sd ed (acc ++ [r]) (n, d)
          = pushLast (if n % 7 = 0 then (acc ++ [r]) ++ [[]] else acc ++ [r]) d from rfl,
        if_neg hn, pushLast_concat]
    rw [hw]
    have h2 : ∀ k, k < t2.length → (n + 1 + k) % 7 ≠ 0 := by
      intro k hk
      have := h (k + 1) (by simpa using Nat.succ_lt_succ hk)
      omega
    have hres := ih (n + 1) acc (r ++ [d]) h2
    rw [hres]
    simp

lemma weekBlocks_eq_nil_iff (l : List Day) : weekBlocks l = [] ↔ l = [] := by
  cases l with
  | nil => simp [weekBlocks]
  | cons d rest => simp [weekBlocks]

lemma weeks_fold_true_blocks (sd ed : Option JSDate) :
    ∀ (l : List Day) (n : Nat) (acc : List (List Day)),
    n % 7 = 0 →
    (List.enumFrom n l).foldl (weeksStep true sd ed) acc = acc ++ weekBlocks l := by
  intro l
  induction l using weekBlocks.induct with
  | case1 =>
    intro n acc _
    simp [weekBlocks]
  | case2 d rest ih =>
    intro n acc hn
    rw [List.enumFrom_cons, List.foldl_cons]
    have hw : weeksStep true sd ed acc (n, d) = acc ++ [[d]] := by
      rw [show weeksStep true sd ed acc (n, d)
          = pushLast (if n % 7 = 0 then acc ++ [[]] else acc) d from rfl,
        if_pos hn, pushLast_concat]
      simp
    rw [hw]
    conv_lhs => rw [show rest = rest.take 6 ++ rest.drop 6 from
      (List.take_append_drop 6 rest).symm]
    rw [List.enumFrom_append, List.foldl_append]
    have hcond : ∀ k, k < (rest.take 6).length → (n + 1 + k) % 7 ≠ 0 := by
      intro k hk
      have hk6 : k < 6 := lt_of_lt_of_le hk (List.length_take_le 6 rest)
      omega
    rw [weeks_fold_true_no_breaks sd ed (rest.take 6) (n + 1) acc [d] hcond]
    by_cases hlen : rest.length ≤ 6
    · rw [show rest.drop 6 = [] from List.drop_eq_nil_of_le hlen]
      rw [List.enumFrom_nil, List.foldl_nil]
      rw [show weekBlocks (d :: rest)
          = ((d :: rest).take 7) :: weekBlocks ((d :: rest).drop 7) from by
        rw [weekBlocks]]
      rw [show (d :: rest).drop 7 = rest.drop 6 from rfl,
        show rest.drop 6 = [] from List.drop_eq_nil_of_le hlen]
      rw [show weekBlocks [] = [] from (weekBlocks_eq_nil_iff []).mpr rfl]
      rw [show rest.take 6 = rest from List.take_of_length_le hlen]
      rw [show (d :: rest).take 7 = d :: rest from
        List.take_of_length_le (by simp; omega)]
      simp
    · have h6 : (rest.take 6).length = 6 := by
        rw [List.length_take]
        omega
      rw [h6]
      have hidx : (n + 1 + 6) % 7 = 0 := by omega
      rw [show rest.drop 6 = (d :: rest).drop 7 from rfl]
      rw [ih (n + 1 + 6) (acc ++ [[d] ++ rest.take 6]) hidx]
      rw [show weekBlocks (d :: rest)
          = ((d :: rest).take 7) :: weekBlocks ((d :: rest).drop 7) from by
        rw [weekBlocks]]
      rw [show ([d] ++ rest.take 6) = (d :: rest).take 7 from rfl]
      simp

lemma weekBlocks_len_bounds : ∀ (l : List Day), ∀ r ∈ weekBlocks l,
    0 < r.length ∧ r.length ≤ 7 := by
  intro l
  induction l using weekBlocks.induct with
  | case1 =>
    intro r hr
    simp [weekBlocks] at hr
  | case2 d rest ih =>
    intro r hr
    rw [show weekBlocks (d :: rest)
        = ((d :: rest).take 7) :: weekBlocks ((d :: rest).drop 7) from by
      rw [weekBlocks]] at hr
    rcases List.mem_cons.mp hr with h | h
    · subst h
      constructor
      · simp [List.length_take]
      · exact List.length_take_le 7 (d :: rest)
    · exact ih r h

lemma weekBlocks_get_seven : ∀ (l : List Day) (i : Nat)
    (hi : i + 1 < (weekBlocks l).length),
    ((weekBlocks l).get ⟨i, Nat.lt_of_succ_lt hi⟩).length = 7 := by
  intro l
  induction l using weekBlocks.induct with
  | case1 =>
    intro i hi
    simp [weekBlocks] at hi
  | case2 d rest ih =>
    intro i hi
    have hcons : weekBlocks (d :: rest)
        = ((d :: rest).take 7) :: weekBlocks ((d :: rest).drop 7) := by
      rw [weekBlocks]
    have hi2 : i + 1 < (((d :: rest).take 7) :: weekBlocks ((d :: rest).drop 7)).length := by
      have hcopy := hi
      rw [hcons] at hcopy
      exact hcopy
    rw [List.get_of_eq hcons]
    cases i with
    | zero =>
      have hb : weekBlocks ((d :: rest).drop 7) ≠ [] := by
        intro h0
        rw [h0] at hi2
        simp at hi2
      have hd7 : (d :: rest).drop 7 ≠ [] := by
        intro h0
        apply hb
        rw [h0]
        exact (weekBlocks_eq_nil_iff []).mpr rfl
      have hlen : 7 ≤ (d :: rest).length := by
        by_contra hc
        exact hd7 (List.drop_eq_nil_of_le (by omega))
      show ((d :: rest).take 7).length = 7
      rw [List.length_take]
      omega
    | succ j =>
      show ((weekBlocks ((d :: rest).drop 7)).get ⟨j, _⟩).length = 7
      have hj : j + 1 < (weekBlocks ((d :: rest).drop 7)).length := by
        have hcopy := hi2
        rw [List.length_cons] at hcopy
        omega
      exact ih j hj

/-- C7 counterexample: on a 3-entry calendar with allowOverflow, chunkWeeks
produces a single row of length 3, so not every row has exactly 7 entries. -/
theorem chunkWeeks_not_all_seven_cex :
    ¬ ∀ r ∈ chunkWeeks true
        [(⟨⟨0, 0⟩, 0, ""⟩ : Day), ⟨⟨1, 0⟩, 0, ""⟩, ⟨⟨2, 0⟩, 0, ""⟩] none none,
      r.length = 7 := by decide

/-- C7 amended: chunkWeeks with allowOverflow partitions the calendar into
consecutive blocks of 7 by sequence index, unconditional on dates: every
row except possibly the last contains exactly 7 entries, and every row has
between 1 and 7 entries. -/
theorem chunkWeeks_seven_blocks (cal : List Day) (sd ed : Option JSDate) :
    chunkWeeks true cal sd ed = weekBlocks cal
    ∧ (∀ i (hi : i + 1 < (chunkWeeks true cal sd ed).length),
        ((chunkWeeks true cal sd ed).get ⟨i, Nat.lt_of_succ_lt hi⟩).length = 7)
    ∧ ∀ r ∈ chunkWeeks true cal sd ed, 0 < r.length ∧ r.length ≤ 7 := by
  have he : chunkWeeks true cal sd ed = weekBlocks cal := by
    unfold chunkWeeks
    rw [show cal.enum = List.enumFrom 0 cal from rfl,
      weeks_fold_true_blocks (sd.map normalizeDate) (ed.map normalizeDate) cal 0 []
        (by norm_num), List.nil_append]
    apply List.filter_eq_self.mpr
    intro r hr
    have hpos := (weekBlocks_len_bounds cal r hr).1
    simp only [bne_iff_ne, ne_eq]
    omega
  refine ⟨he, ?_, ?_⟩
  · intro i hi
    have hi2 : i + 1 < (weekBlocks cal).length := by
      rw [← he]
      exact hi
    rw [List.get_of_eq he]
    exact weekBlocks_get_seven cal i hi2
  · intro r hr
    rw [he] at hr
    exact weekBlocks_len_bounds cal r hr

theorem chunkWeeks_seven_blocks_w :
    ((chunkWeeks true
        [(⟨⟨0, 0⟩, 0, ""⟩ : Day), ⟨⟨1, 0⟩, 0, ""⟩, ⟨⟨2, 0⟩, 0, ""⟩, ⟨⟨3, 0⟩, 0, ""⟩,
          ⟨⟨4, 0⟩, 0, ""⟩, ⟨⟨5, 0⟩, 0, ""⟩, ⟨⟨6, 0⟩, 0, ""⟩, ⟨⟨7, 0⟩, 0, ""⟩] none none).get
        ⟨0, Nat.lt_of_succ_lt (by decide)⟩).length = 7 :=
  (chunkWeeks_seven_blocks
      [(⟨⟨0, 0⟩, 0, ""⟩ : Day), ⟨⟨1, 0⟩, 0, ""⟩, ⟨⟨2, 0⟩, 0, ""⟩, ⟨⟨3, 0⟩, 0, ""⟩,
        ⟨⟨4, 0⟩, 0, ""⟩, ⟨⟨5, 0⟩, 0, ""⟩, ⟨⟨6, 0⟩, 0, ""⟩, ⟨⟨7, 0⟩, 0, ""⟩] none none).2.1
    0 (by decide)

-- chunkMonths groups a contiguous calendar by real calendar month

lemma pushLast_getLastD (rows : List (List Day)) (d : Day) :
    (pushLast rows d).getLastD [] = rows.getLastD [] ++ [d] := by
  rw [pushLast, List.getLastD_concat]

lemma pushLast_dropLast (rows : List (List Day)) (d : Day) :
    (pushLast rows d).dropLast = rows.dropLast := by
  rw [pushLast, List.dropLast_concat]

lemma mem_rows_decomp {rows : List (List Day)} (h : rows ≠ []) {r : List Day}
    (hr : r ∈ rows) : r ∈ rows.dropLast ∨ r = rows.getLastD [] := by
  have hsplit := List.dropLast_append_getLast h
  rw [getLastD_eq_getLast h]
  rw [← hsplit] at hr
  rcases List.mem_append.mp hr with h2 | h2
  · exact Or.inl h2
  · exact Or.inr (List.mem_singleton.mp h2)

lemma pairwise_pushLast {rows : List (List Day)} (h : rows ≠ []) {d : Day}
    (hp : List.Pairwise rowMonthLt rows)
    (hd : ∀ r ∈ rows.dropLast, ∀ a ∈ r, monthIdx a.date.day < monthIdx d.date.day) :
    List.Pairwise rowMonthLt (pushLast rows d) := by
  rw [pushLast]
  have hsplit := List.dropLast_append_getLast h
  have hp2 : List.Pairwise rowMonthLt (rows.dropLast ++ [rows.getLast h]) := by
    rw [hsplit]
    exact hp
  rw [List.pairwise_append] at hp2
  obtain ⟨hpa, _, hrel⟩ := hp2
  rw [List.pairwise_append]
  refine ⟨hpa, by simp, ?_⟩
  intro r hr x hx
  have hx2 := List.mem_singleton.mp hx
  subst hx2
  intro a ha b hb
  rcases List.mem_append.mp hb with hb2 | hb2
  · have h3 := hrel r hr (rows.getLast h) (by simp)
    apply h3 a ha
    rwa [getLastD_eq_getLast h] at hb2
  · rw [List.mem_singleton.mp hb2]
    exact hd r hr a ha

lemma monthsStep_inv (ao : Bool) (sd ed : Option JSDate) {z : Int}
    {st : List (List Day) × Int} (hinv : monthsInv z st) {d : Day}
    (hd : d.date.day = z + 1) :
    monthsInv (z + 1) (monthsStep ao sd ed st d) := by
  obtain ⟨hne, hprev, hlast, hdrop, hpw, hrow⟩ := hinv
  have hidxd : monthIdx d.date.day = monthIdx (z + 1) := by rw [hd]
  rcases month_step z with ⟨hmeq, hieq⟩ | ⟨hmne, hinc⟩
  · have hcm : st.2 = d.date.getMonth := by
      rw [hprev]
      show _ = ((civilOfDay d.date.day).month : Int) - 1
      rw [hd, hmeq]
    have hsv : monthsStep ao sd ed st d
        = if ao || boundsKeep sd ed d.date then (pushLast st.1 d, st.2) else st := by
      simp only [monthsStep]
      rw [if_neg (not_not_intro hcm)]
    rw [hsv]
    have hfacts : ∀ a ∈ st.1.getLastD [], monthIdx a.date.day = monthIdx (z + 1) := by
      intro a ha
      rw [hieq]
      exact hlast a ha
    have hdrop1 : ∀ r ∈ st.1.dropLast, ∀ a ∈ r, monthIdx a.date.day < monthIdx (z + 1) := by
      intro r hr a ha
      rw [hieq]
      exact hdrop r hr a ha
    have hprev1 : st.2 = ((civilOfDay (z + 1)).month : Int) - 1 := by
      rw [hprev, hmeq]
    by_cases hk : (ao || boundsKeep sd ed d.date) = true
    · rw [if_pos hk]
      refine ⟨pushLast_ne_nil _ _, hprev1, ?_, ?_, ?_, ?_⟩
      · rw [pushLast_getLastD]
        intro a ha
        rcases List.mem_append.mp ha with h2 | h2
        · exact hfacts a h2
        · rw [List.mem_singleton.mp h2]
          exact hidxd
      · rw [pushLast_dropLast]
        exact hdrop1
      · apply pairwise_pushLast hne hpw
        intro r hr a ha
        rw [hidxd]
        exact hdrop1 r hr a ha
      · intro r hr a ha b hb
        rcases mem_pushLast hr with h2 | h2
        · exact hrow r ((List.dropLast_sublist _).subset h2) a ha b hb
        · subst h2
          have hall : ∀ x ∈ st.1.getLastD [] ++ [d],
              monthIdx x.date.day = monthIdx (z + 1) := by
            intro x hx
            rcases List.mem_append.mp hx with h3 | h3
            · exact hfacts x h3
            · rw [List.mem_singleton.mp h3]
              exact hidxd
          rw [hall a ha, hall b hb]
    · rw [if_neg hk]
      exact ⟨hne, hprev1, hfacts, hdrop1, hpw, hrow⟩
  · have hcm : st.2 ≠ d.date.getMonth := by
      rw [hprev]
      intro hc
      unfold JSDate.getMonth at hc
      rw [hd] at hc
      have hcast : (civilOfDay (z + 1)).month = (civilOfDay z).month := by omega
      exact hmne hcast
    have hprev1 : d.date.getMonth = ((civilOfDay (z + 1)).month : Int) - 1 := by
      unfold JSDate.getMonth
      rw [hd]
    have hle : ∀ r ∈ st.1, ∀ a ∈ r, monthIdx a.date.day ≤ monthIdx z := by
      intro r hr a ha
      rcases mem_rows_decomp hne hr with h2 | h2
      · exact le_of_lt (hdrop r h2 a ha)
      · exact le_of_eq (hlast a (h2 ▸ ha))
    have hsv : monthsStep ao sd ed st d
        = if ao || boundsKeep sd ed d.date then (st.1 ++ [[d]], d.date.getMonth)
          else (st.1 ++ [[]], d.date.getMonth) := by
      simp only [monthsStep]
      rw [if_pos hcm]
      by_cases hk : (ao || boundsKeep sd ed d.date) = true
      · rw [if_pos hk, if_pos hk]
        rw [show ((st.1 ++ [[]], d.date.getMonth) : List (List Day) × Int).1
            = st.1 ++ [[]] from rfl, pushLast_concat]
        rfl
      · rw [if_neg hk, if_neg hk]
    rw [hsv]
    by_cases hk : (ao || boundsKeep sd ed d.date) = true
    · rw [if_pos hk]
      refine ⟨by simp, hprev1, ?_, ?_, ?_, ?_⟩
      · rw [List.getLastD_concat]
        intro a ha
        rw [List.mem_singleton.mp ha]
        exact hidxd
      · rw [List.dropLast_concat]
        intro r hr a ha
        have := hle r hr a ha
        omega
      · rw [List.pairwise_append]
        refine ⟨hpw, by simp, ?_⟩
        intro r hr x hx
        have hx2 := List.mem_singleton.mp hx
        subst hx2
        intro a ha b hb
        have hb2 := List.mem_singleton.mp hb
        subst hb2
        rw [hidxd, hinc]
        have := hle r hr a ha
        omega
      · intro r hr a ha b hb
        rcases List.mem_append.mp hr with h2 | h2
        · exact hrow r h2 a ha b hb
        · have h3 := List.mem_singleton.mp h2
          subst h3
          rw [List.mem_singleton.mp ha, List.mem_singleton.mp hb]
    · rw [if_neg hk]
      refine ⟨by simp, hprev1, ?_, ?_, ?_, ?_⟩
      · rw [List.getLastD_concat]
        intro a ha
        exact absurd ha (List.not_mem_nil a)
      · rw [List.dropLast_concat]
        intro r hr a ha
        have := hle r hr a ha
        omega
      · rw [List.pairwise_append]
        refine ⟨hpw, by simp, ?_⟩
        intro r hr x hx
        have hx2 := List.mem_singleton.mp hx
        subst hx2
        intro a ha b hb
        exact absurd hb (List.not_mem_nil b)
      · intro r hr a ha b hb
        rcases List.mem_append.mp hr with h2 | h2
        · exact hrow r h2 a ha b hb
        · have h3 := List.mem_singleton.mp h2
          subst h3
          exact absurd ha (List.not_mem_nil a)

lemma monthsInv_init (ao : Bool) (sd ed : Option JSDate) (d : Day) :
    monthsInv d.date.day (monthsStep ao sd ed ([], -1) d) := by
  have hv := civilOfDay_valid d.date.day
  obtain ⟨hm1, hm2, _, _⟩ := hv
  have hne : ((([], -1) : List (List Day) × Int)).2 ≠ d.date.getMonth := by
    show (-1 : Int) ≠ _
    unfold JSDate.getMonth
    omega
  have hsv : monthsStep ao sd ed ([], -1) d
      = if ao || boundsKeep sd ed d.date then ([[d]], d.date.getMonth)
        else ([[]], d.date.getMonth) := by
    simp only [monthsStep]
    rw [if_pos hne]
    by_cases hk : (ao || boundsKeep sd ed d.date) = true
    · rw [if_pos hk, if_pos hk]
      rfl
    · rw [if_neg hk, if_neg hk]
      rfl
  rw [hsv]
  by_cases hk : (ao || boundsKeep sd ed d.date) = true
  · rw [if_pos hk]
    refine ⟨by simp, rfl, ?_, ?_, ?_, ?_⟩
    · intro a ha
      rw [show ([[d]] : List (List Day)).getLastD [] = [d] from rfl] at ha
      rw [List.mem_singleton.mp ha]
    · intro r hr
      rw [show ([[d]] : List (List Day)).dropLast = [] from rfl] at hr
      exact absurd hr (List.not_mem_nil r)
    · simp
    · intro r hr a ha b hb
      rw [List.mem_singleton.mp hr] at ha hb
      rw [List.mem_singleton.mp ha, List.mem_singleton.mp hb]
  · rw [if_neg hk]
    refine ⟨by simp, rfl, ?_, ?_, ?_, ?_⟩
    · intro a ha
      rw [show ([[]] : List (List Day)).getLastD [] = [] from rfl] at ha
      exact absurd ha (List.not_mem_nil a)
    · intro r hr
      rw [show ([[]] : List (List Day)).dropLast = [] from rfl] at hr
      exact absurd hr (List.not_mem_nil r)
    · simp
    · intro r hr a ha b hb
      rw [List.mem_singleton.mp hr] at ha
      exact absurd ha (List.not_mem_nil a)

lemma months_fold_inv (ao : Bool) (sd ed : Option JSDate) :
    ∀ (l : List Day) (z : Int) (st : List (List Day) × Int),
    monthsInv z st →
    (∀ d ∈ l.head?, d.date.day = z + 1) →
    List.Chain' (fun a b => b.date.day = a.date.day + 1) l →
    ∃ w, monthsInv w (l.foldl (monthsStep ao sd ed) st) := by
  intro l
  induction l with
  | nil =>
    intro z st h _ _
    exact ⟨z, h⟩
  | cons d t ih =>
    intro z st h hhead hchain
    rw [List.foldl_cons]
    have hd : d.date.day = z + 1 := hhead d rfl
    have hinv2 := monthsStep_inv ao sd ed h hd
    rcases List.chain'_cons'.mp hchain with ⟨hlink, hchain2⟩
    apply ih (z + 1) _ hinv2
    · intro d2 hd2
      have h2 := hlink d2 hd2
      omega
    · exact hchain2

lemma monthIdx_inj {z1 z2 : Int} (h : monthIdx z1 = monthIdx z2) :
    (civilOfDay z1).year = (civilOfDay z2).year
    ∧ (civilOfDay z1).month = (civilOfDay z2).month := by
  have h1 := civilOfDay_valid z1
  have h2 := civilOfDay_valid z2
  obtain ⟨ha1, ha2, _, _⟩ := h1
  obtain ⟨hb1, hb2, _, _⟩ := h2
  unfold monthIdx at h
  omega

/-- C8: on a contiguous ascending calendar, every row of chunkMonths holds
days of exactly one calendar month (same year and month for any two
entries of a row), and no two distinct rows share a month: months are
neither split across rows nor merged into one row. -/
theorem chunkMonths_single_month_rows (ao : Bool) (cal : List Day)
    (sd ed : Option JSDate)
    (hchain : List.Chain' (fun a b => b.date.day = a.date.day + 1) cal) :
    (∀ r ∈ chunkMonths ao cal sd ed, ∀ a ∈ r, ∀ b ∈ r,
        (civilOfDay a.date.day).year = (civilOfDay b.date.day).year
        ∧ (civilOfDay a.date.day).month = (civilOfDay b.date.day).month)
    ∧ ∀ i j (hi : i < (chunkMonths ao cal sd ed).length)
        (hj : j < (chunkMonths ao cal sd ed).length), i ≠ j →
        ∀ a ∈ (chunkMonths ao cal sd ed).get ⟨i, hi⟩,
        ∀ b ∈ (chunkMonths ao cal sd ed).get ⟨j, hj⟩,
        ¬ ((civilOfDay a.date.day).year = (civilOfDay b.date.day).year
          ∧ (civilOfDay a.date.day).month = (civilOfDay b.date.day).month) := by
  cases cal with
  | nil =>
    constructor
    · intro r hr
      simp [chunkMonths] at hr
    · intro i j hi hj
      simp [chunkMonths] at hi
  | cons d t =>
    rcases List.chain'_cons'.mp hchain with ⟨hlink, hchain2⟩
    obtain ⟨w, hinvw⟩ := months_fold_inv ao (sd.map normalizeDate) (ed.map normalizeDate)
      t d.date.day (monthsStep ao (sd.map normalizeDate) (ed.map normalizeDate) ([], -1) d)
      (monthsInv_init ao (sd.map normalizeDate) (ed.map normalizeDate) d)
      (fun d2 hd2 => hlink d2 hd2) hchain2
    obtain ⟨-, -, -, -, hpw, hrow⟩ := hinvw
    have hdef : chunkMonths ao (d :: t) sd ed
        = (((d :: t).foldl
            (monthsStep ao (sd.map normalizeDate) (ed.map normalizeDate))
            ([], -1)).1).filter (fun month => month.length != 0) := rfl
    rw [List.foldl_cons] at hdef
    constructor
    · intro r hr a ha b hb
      rw [hdef] at hr
      have hr2 := (List.mem_filter.mp hr).1
      have hidx := hrow r hr2 a ha b hb
      exact monthIdx_inj hidx
    · intro i j hi hj hne a ha b hb hcon
      have hidx : monthIdx a.date.day = monthIdx b.date.day := by
        unfold monthIdx
        rw [hcon.1, hcon.2]
      have hpwf : List.Pairwise rowMonthLt (chunkMonths ao (d :: t) sd ed) := by
        rw [hdef]
        exact List.Pairwise.sublist (List.filter_sublist _) hpw
      rcases lt_or_gt_of_ne hne with hlt | hgt
      · have := (List.pairwise_iff_get.mp hpwf) ⟨i, hi⟩ ⟨j, hj⟩ hlt a ha b hb
        omega
      · have := (List.pairwise_iff_get.mp hpwf) ⟨j, hj⟩ ⟨i, hi⟩ hgt b hb a ha
        omega

theorem chunkMonths_single_month_rows_w :
    ((civilOfDay ((⟨⟨28, 0⟩, 0, ""⟩ : Day)).date.day).year
        = (civilOfDay ((⟨⟨30, 0⟩, 0, ""⟩ : Day)).date.day).year
      ∧ (civilOfDay ((⟨⟨28, 0⟩, 0, ""⟩ : Day)).date.day).month
        = (civilOfDay ((⟨⟨30, 0⟩, 0, ""⟩ : Day)).date.day).month)
    ∧ ¬ ((civilOfDay ((⟨⟨28, 0⟩, 0, ""⟩ : Day)).date.day).year
        = (civilOfDay ((⟨⟨31, 0⟩, 0, ""⟩ : Day)).date.day).year
      ∧ (civilOfDay ((⟨⟨28, 0⟩, 0, ""⟩ : Day)).date.day).month
        = (civilOfDay ((⟨⟨31, 0⟩, 0, ""⟩ : Day)).date.day).month) :=
  ⟨(chunkMonths_single_month_rows true
        [⟨⟨28, 0⟩, 0, ""⟩, ⟨⟨29, 0⟩, 0, ""⟩, ⟨⟨30, 0⟩, 0, ""⟩, ⟨⟨31, 0⟩, 0, ""⟩,
          ⟨⟨32, 0⟩, 0, ""⟩] none none
        (List.Chain.cons (by decide) (List.Chain.cons (by decide)
        (List.Chain.cons (by decide) (List.Chain.cons (by decide) List.Chain.nil))))).1
      [⟨⟨28, 0⟩, 0, ""⟩, ⟨⟨29, 0⟩, 0, ""⟩, ⟨⟨30, 0⟩, 0, ""⟩] (by decide)
      ⟨⟨28, 0⟩, 0, ""⟩ (by decide) ⟨⟨30, 0⟩, 0, ""⟩ (by decide),
    (chunkMonths_single_month_rows true
        [⟨⟨28, 0⟩, 0, ""⟩, ⟨⟨29, 0⟩, 0, ""⟩, ⟨⟨30, 0⟩, 0, ""⟩, ⟨⟨31, 0⟩, 0, ""⟩,
          ⟨⟨32, 0⟩, 0, ""⟩] none none
        (List.Chain.cons (by decide) (List.Chain.cons (by decide)
        (List.Chain.cons (by decide) (List.Chain.cons (by decide) List.Chain.nil))))).2
      0 1 (by decide) (by decide) (by decide)
      ⟨⟨28, 0⟩, 0, ""⟩ (by decide) ⟨⟨31, 0⟩, 0, ""⟩ (by decide)⟩

-- getColor: bucket selection

lemma get_eq_of_val_eq {α : Type} (l : List α) {i j : Nat} (h : i = j)
    (hi : i < l.length) (hj : j < l.length) : l.get ⟨i, hi⟩ = l.get ⟨j, hj⟩ := by
  subst h
  rfl

lemma getColorGo_spec (colors : List String) (int : ℚ) :
    ∀ (rest : List String) (i : Nat) (color : String),
    colors.drop i = rest → 1 ≤ i →
    ∀ (hi : i - 1 < colors.length),
    color = colors.get ⟨i - 1, hi⟩ →
    (((i - 1 : Nat) : ℚ) / (colors.length : ℚ) ≤ int) →
    ∀ (hFG : Nat.findGreatest
        (fun j => ((j : ℚ) / (colors.length : ℚ) ≤ int)) (colors.length - 1)
        < colors.length),
    getColorGo (colors.length : ℚ) int rest i color
      = colors.get ⟨Nat.findGreatest
          (fun j => ((j : ℚ) / (colors.length : ℚ) ≤ int)) (colors.length - 1), hFG⟩ := by
  intro rest
  induction rest with
  | nil =>
    intro i color hdrop h1i hi hcolor hPi hFG
    have hlen : colors.length ≤ i := by
      have hcong := congrArg List.length hdrop
      rw [List.length_drop] at hcong
      simp at hcong
      omega
    have hieq : i = colors.length := by omega
    show color = _
    rw [hcolor]
    have hFGeq : Nat.findGreatest
        (fun j => ((j : ℚ) / (colors.length : ℚ) ≤ int)) (colors.length - 1)
        = colors.length - 1 :=
      le_antisymm (Nat.findGreatest_le _)
        (Nat.le_findGreatest (le_refl _) (by
          have : i - 1 = colors.length - 1 := by omega
          rw [← this]
          exact hPi))
    exact get_eq_of_val_eq colors (by omega) hi hFG
  | cons c rest2 ih =>
    intro i color hdrop h1i hi hcolor hPi hFG
    show (if int < (i : ℚ) / (colors.length : ℚ) then color
        else getColorGo (colors.length : ℚ) int rest2 (i + 1) c) = _
    have hilen : i < colors.length := by
      by_contra hc
      rw [List.drop_eq_nil_of_le (by omega)] at hdrop
      exact List.cons_ne_nil c rest2 hdrop.symm
    have hdropi := List.drop_eq_getElem_cons hilen
    rw [hdrop] at hdropi
    obtain ⟨hc, hrest⟩ := List.cons_eq_cons.mp hdropi.symm
    by_cases hb : int < (i : ℚ) / (colors.length : ℚ)
    · rw [if_pos hb, hcolor]
      have hFGeq : Nat.findGreatest
          (fun j => ((j : ℚ) / (colors.length : ℚ) ≤ int)) (colors.length - 1)
          = i - 1 := by
        rw [Nat.findGreatest_eq_iff]
        refine ⟨by omega, fun _ => hPi, ?_⟩
        intro k hk1 hk2 hPk
        have hik : (i : ℚ) / (colors.length : ℚ) ≤ (k : ℚ) / (colors.length : ℚ) := by
          gcongr
          exact_mod_cast (by omega : i ≤ k)
        linarith
      exact get_eq_of_val_eq colors (by omega) hi hFG
    · rw [if_neg hb]
      have hge : (i : ℚ) / (colors.length : ℚ) ≤ int := le_of_not_lt hb
      exact ih (i + 1) c hrest (by omega) (by omega) (by exact hc.symm) hge hFG

lemma headD_eq_get {colors : List String} (h : colors ≠ []) :
    colors.headD "" = colors.get ⟨0, List.length_pos.mpr h⟩ := by
  cases colors with
  | nil => exact absurd rfl h
  | cons a t => rfl

/-- C4: for a nonempty scale and positive max and value, getColor returns
the scale entry at the highest index i with value / max at or above the
bucket boundary i / scaleLength. -/
theorem getColor_bucket (colors : List String) (max value : Int)
    (h1 : colors ≠ []) (h2 : 0 < max) (h3 : 0 < value) :
    getColor colors max value
      = some (colors.get ⟨Nat.findGreatest
          (fun j => ((j : ℚ) / (colors.length : ℚ) ≤ (value : ℚ) / (max : ℚ)))
          (colors.length - 1),
          lt_of_le_of_lt (Nat.findGreatest_le _)
            (Nat.sub_lt (List.length_pos.mpr h1) Nat.one_pos)⟩) := by
  unfold getColor
  rw [if_pos ⟨fun h0 => h1 (List.length_eq_zero.mp h0), by omega⟩]
  congr 1
  apply getColorGo_spec colors ((value : ℚ) / (max : ℚ)) (colors.drop 1) 1
    (colors.headD "") rfl (le_refl 1) (by simpa using List.length_pos.mpr h1)
    (headD_eq_get h1)
  show ((0 : Nat) : ℚ) / (colors.length : ℚ) ≤ (value : ℚ) / (max : ℚ)
  rw [Nat.cast_zero, zero_div]
  positivity

theorem getColor_bucket_w : getColor ["a"] 1 1 = some "a" :=
  (getColor_bucket ["a"] 1 1 (by decide) (by decide) (by decide)).trans rfl

-- getColor: null signal and the caller substitution

lemma getColorGo_mem (N int : ℚ) : ∀ (rest : List String) (i : Nat) (color : String),
    getColorGo N int rest i color = color ∨ getColorGo N int rest i color ∈ rest := by
  intro rest
  induction rest with
  | nil =>
    intro i color
    left
    rfl
  | cons c rest2 ih =>
    intro i color
    show (if int < (i : ℚ) / N then color else getColorGo N int rest2 (i + 1) c) = color
      ∨ (if int < (i : ℚ) / N then color else getColorGo N int rest2 (i + 1) c) ∈ c :: rest2
    by_cases hb : int < (i : ℚ) / N
    · rw [if_pos hb]
      left
      rfl
    · rw [if_neg hb]
      rcases ih (i + 1) c with h | h
      · right
        rw [h]
        exact List.mem_cons_self c rest2
      · right
        exact List.mem_cons_of_mem c h

/-- C5 counterexample: with the one-element scale consisting of the empty
string, getColor returns a scale entry (not null) for a positive value,
yet getCalendar still substitutes the empty color, because the
JavaScript or-operator treats the empty string as falsy. -/
theorem getColor_substitution_cex :
    getColor [""] 1 1 = some ""
    ∧ getColor [""] 1 1 ≠ none
    ∧ (getCalendar [""] [⟨⟨3, 0⟩, 1⟩] "X" (some ⟨3, 0⟩) (some ⟨3, 0⟩) "weekly"
        ⟨0, 0⟩).head? = some ⟨⟨3, 0⟩, 1, "X"⟩ := by
  refine ⟨by decide, by decide, by decide⟩

/-- C5 amended: getColor returns null iff the scale is empty or the value
is zero, and otherwise returns an element of the scale; the caller
substitutes the empty color exactly when getColor returns null, an
empty-string color, or the empty color itself (the JavaScript or-operator
also treats an empty-string color as falsy). -/
theorem getColor_null_and_substitution (colors : List String) (max value : Int)
    (emptyColor : String) :
    (getColor colors max value = none ↔ colors = [] ∨ value = 0)
    ∧ (∀ c, getColor colors max value = some c → c ∈ colors)
    ∧ (jsOr (getColor colors max value) emptyColor = emptyColor
        ↔ getColor colors max value = none
          ∨ getColor colors max value = some ""
          ∨ getColor colors max value = some emptyColor)
    ∧ ∀ (data : List Observation) (sd ed : Option JSDate) (view : String)
        (now : JSDate), ∀ day ∈ getCalendar colors data emptyColor sd ed view now,
        day.color = jsOr (getColor colors
            (calendarMax (calendarDays data sd ed view now)) day.value) emptyColor := by
  refine ⟨?_, ?_, ?_, ?_⟩
  · unfold getColor
    split_ifs with h
    · obtain ⟨hl, hv⟩ := h
      constructor
      · intro h0
        simp at h0
      · intro h0
        rcases h0 with h0 | h0
        · exact absurd (by rw [h0]; rfl : colors.length = 0) hl
        · exact absurd h0 hv
    · constructor
      · intro _
        by_contra hc
        push_neg at hc
        exact h ⟨fun h0 => hc.1 (List.length_eq_zero.mp h0), hc.2⟩
      · intro _
        rfl
  · intro c hc
    unfold getColor at hc
    split_ifs at hc with hcond
    · have hgo := Option.some_injective _ hc
      have hne : colors ≠ [] := fun h0 => hcond.1 (by rw [h0]; rfl)
      rcases getColorGo_mem (colors.length : ℚ) ((value : ℚ) / (max : ℚ))
          (colors.drop 1) 1 (colors.headD "") with h | h
      · rw [← hgo, h]
        cases colors with
        | nil => exact absurd rfl hne
        | cons a t => exact List.mem_cons_self a t
      · rw [← hgo]
        exact List.mem_of_mem_drop h
  · rcases ho : getColor colors max value with _ | c
    · simp [jsOr]
    · by_cases hc : c = ""
      · subst hc
        simp [jsOr]
      · simp [jsOr, hc]
  · intro data sd ed view now day hday
    rw [getCalendar_eq_map] at hday
    obtain ⟨dv, hdv, rfl⟩ := List.mem_map.mp hday
    rfl

theorem getColor_null_and_substitution_w :
    ("" ∈ ([""] : List String))
    ∧ jsOr (getColor [""] (1 : Int) 1) "X" = "X"
    ∧ ((⟨⟨3, 0⟩, 1, "X"⟩ : Day).color
        = jsOr (getColor [""]
            (calendarMax (calendarDays [⟨⟨3, 0⟩, 1⟩] (some ⟨3, 0⟩) (some ⟨3, 0⟩)
              "weekly" ⟨0, 0⟩))
            (⟨⟨3, 0⟩, 1, "X"⟩ : Day).value) "X") :=
  ⟨(getColor_null_and_substitution [""] 1 1 "X").2.1 "" (by decide),
    ((getColor_null_and_substitution [""] 1 1 "X").2.2.1).mpr
      (Or.inr (Or.inl (by decide))),
    (getColor_null_and_substitution [""] 1 1 "X").2.2.2 [⟨⟨3, 0⟩, 1⟩]
      (some ⟨3, 0⟩) (some ⟨3, 0⟩) "weekly" ⟨0, 0⟩ ⟨⟨3, 0⟩, 1, "X"⟩ (by decide)⟩
